import Mathlib

/-!
Shallow embedding of the Observable library (src/unnamed/part_000).

The library's synchronous producers are modelled as state transformers: an
observer over a downstream world `σ` is a record of three callbacks
(`nextFn`, `errorFn`, `completeFn`) that each update the world, and an
observable is its `subscribe` function, polymorphic in the world, taking an
observer and an initial world and threading the world through every callback
invocation in the order the JS code performs them.  The local mutable
variables of the JS operators (the counter `i` of `take`, the guard flags
`bool` of `first` and `skip`, the `isDone` flag of `concat`) become extra
state components paired with the world.  A subscription's event sequence is
recovered by instantiating the world at lists of events with a collecting
observer.
-/

namespace RxModel

/-- One observer-callback invocation: `next v`, `error e`, or `complete`. -/
inductive Ev (ε α : Type) where
  | next (v : α)
  | error (e : ε)
  | complete
deriving DecidableEq, Repr

variable {ε α β σ : Type}

/-- The observer record `(nextFn, errorFn, completeFn)` over world state `σ`. -/
structure Observer (ε α σ : Type) where
  nextFn : α → σ → σ
  errorFn : ε → σ → σ
  completeFn : σ → σ

/-- An observable is its `subscribe` method, polymorphic in the observer's world. -/
def Obs (ε α : Type) : Type 1 := (σ : Type) → Observer ε α σ → σ → σ

/-- Models `Observable.of`: `o.subscribe = (nextFn, errorFn, completeFn) =>
    { args.forEach(x => nextFn(x)); completeFn() }`. -/
def of (args : List α) : Obs ε α :=
  fun _ obs s => obs.completeFn (args.foldl (fun s x => obs.nextFn x s) s)

/-- Models `Observable.fromArray = (args = []) => Observable.of(...args)`. -/
def fromArray (args : List α := []) : Obs ε α :=
  of args

/-- Effect of one event on an observer: dispatch to the corresponding callback. -/
def Ev.applyTo : Ev ε α → Observer ε α σ → σ → σ
  | .next v, obs, s => obs.nextFn v s
  | .error e, obs, s => obs.errorFn e s
  | .complete, obs, s => obs.completeFn s

/-- The observable that replays a fixed event trace to its observer; arbitrary
    synchronous upstream behaviour is represented this way. -/
def ofTrace (tr : List (Ev ε α)) : Obs ε α :=
  fun _ obs s => tr.foldl (fun s e => e.applyTo obs s) s

/-- The collecting observer: the world is the list of events received so far. -/
def collect : Observer ε α (List (Ev ε α)) where
  nextFn := fun v s => s ++ [.next v]
  errorFn := fun e s => s ++ [.error e]
  completeFn := fun s => s ++ [.complete]

/-- The event sequence one subscription delivers, starting from an empty log. -/
def run (o : Obs ε α) : List (Ev ε α) :=
  o _ collect []

/-- Models `Observable.prototype.map = Observable.map = function (projection,
    thisArgs)`: subscribes to `thisArgs` when it is an Observable, otherwise to
    the receiver, forwarding `nextFn(projection(val))` and passing `errorFn`
    and `completeFn` through unchanged. -/
def map (self : Obs ε α) (projection : α → β) (thisArgs : Option (Obs ε α) := none) :
    Obs ε β :=
  fun _ obs s =>
    match thisArgs with
    | some src =>
        src _ ⟨fun val s => obs.nextFn (projection val) s, obs.errorFn, obs.completeFn⟩ s
    | none =>
        self _ ⟨fun val s => obs.nextFn (projection val) s, obs.errorFn, obs.completeFn⟩ s

/-- Models `Observable.prototype.filter = Observable.filter = function
    (predicate, thisArgs)`: forwards `nextFn(val)` only when `predicate(val)`
    holds; `errorFn` and `completeFn` pass through unchanged. -/
def filter (self : Obs ε α) (predicate : α → Bool) (thisArgs : Option (Obs ε α) := none) :
    Obs ε α :=
  fun _ obs s =>
    match thisArgs with
    | some src =>
        src _ ⟨fun val s => if predicate val then obs.nextFn val s else s,
               obs.errorFn, obs.completeFn⟩ s
    | none =>
        self _ ⟨fun val s => if predicate val then obs.nextFn val s else s,
               obs.errorFn, obs.completeFn⟩ s

/-- Models `Observable.prototype.mapTo = function (constant)`: ignores the
    incoming value and emits `constant` on every upstream `next`. -/
def mapTo (self : Obs ε α) (constant : β) : Obs ε β :=
  fun _ obs s =>
    self _ ⟨fun _ s => obs.nextFn constant s, obs.errorFn, obs.completeFn⟩ s

/-- Models `Observable.prototype.startWith = function (...args)`: first
    `args.forEach(x => nextFn(x))`, then subscribes to the receiver forwarding
    everything unchanged. -/
def startWith (self : Obs ε α) (args : List α) : Obs ε α :=
  fun _ obs s =>
    self _ ⟨fun val s => obs.nextFn val s, obs.errorFn, obs.completeFn⟩
      (args.foldl (fun s x => obs.nextFn x s) s)

/-- The observer `take`'s subscribe hands upstream: the local counter `i` is
    the first component of the upstream world, and a value is forwarded exactly
    when `++i <= count`. -/
def takeObs (count : Int) (obs : Observer ε α σ) : Observer ε α (Int × σ) where
  nextFn := fun val p =>
    if p.1 + 1 ≤ count then (p.1 + 1, obs.nextFn val p.2) else (p.1 + 1, p.2)
  errorFn := fun e p => (p.1, obs.errorFn e p.2)
  completeFn := fun p => (p.1, obs.completeFn p.2)

/-- Models `Observable.prototype.take = function (count)`: local counter
    `let i = 0`, forwarding a value exactly when `++i <= count`; `errorFn` and
    `completeFn` pass through unchanged. -/
def take (self : Obs ε α) (count : Int) : Obs ε α :=
  fun σ obs s => (self (Int × σ) (takeObs count obs) (0, s)).2

/-- The observer `first`'s subscribe hands upstream: the local guard `bool` is
    the first component of the upstream world. -/
def firstObs (predicate : Option (α → Bool)) (obs : Observer ε α σ) :
    Observer ε α (Bool × σ) where
  nextFn := fun val p =>
    if p.1 then
      match predicate with
      | some pred => if pred val then (false, obs.nextFn val p.2) else p
      | none => (false, obs.nextFn val p.2)
    else p
  errorFn := fun e p => (p.1, obs.errorFn e p.2)
  completeFn := fun p => (p.1, obs.completeFn p.2)

/-- Models `Observable.prototype.first = function (predicate)`: local guard
    `let bool = true`; when the guard is set and either the predicate is a
    function that accepts the value, or no predicate was supplied, clears the
    guard and forwards the value; all later values are suppressed.  `errorFn`
    and `completeFn` pass through unchanged. -/
def first (self : Obs ε α) (predicate : Option (α → Bool) := none) : Obs ε α :=
  fun σ obs s => (self (Bool × σ) (firstObs predicate obs) (true, s)).2

/-- The observer `skip`'s subscribe hands upstream: the local flag `bool` is
    the first component of the upstream world. -/
def skipObs [DecidableEq α] (the : α) (obs : Observer ε α σ) :
    Observer ε α (Bool × σ) where
  nextFn := fun val p =>
    if p.1 then (p.1, obs.nextFn val p.2)
    else if val = the then (true, p.2) else p
  errorFn := fun e p => (p.1, obs.errorFn e p.2)
  completeFn := fun p => (p.1, obs.completeFn p.2)

/-- Models `Observable.prototype.skip = function (the)`: local flag
    `let bool = false`; while the flag is clear, values are suppressed and the
    first value with `val === the` sets the flag (itself suppressed); once the
    flag is set every value is forwarded.  `errorFn` and `completeFn` pass
    through unchanged. -/
def skip [DecidableEq α] (self : Obs ε α) (the : α) : Obs ε α :=
  fun σ obs s => (self (Bool × σ) (skipObs the obs) (false, s)).2

/-- The observer `concat`'s `callback` hands each queued observable: `next` and
    `error` forward to the downstream observer, while `complete` only sets the
    shared `isDone` flag (the first component of the inner world). -/
def concatInnerObs (obs : Observer ε α σ) : Observer ε α (Bool × σ) where
  nextFn := fun v p => (p.1, obs.nextFn v p.2)
  errorFn := fun e p => (p.1, obs.errorFn e p.2)
  completeFn := fun p => (true, p.2)

/-- The `callback` closed over by `concat`'s subscribe: `let isDone = true;
    observables.forEach(obs => { if (isDone) { isDone = false;
    obs.subscribe(v => nextFn(v), errorFn, () => { isDone = true }) } })`. -/
def concatCallback (observables : List (Obs ε α)) (obs : Observer ε α σ) (s : σ) : σ :=
  (observables.foldl
    (fun acc ob =>
      if acc.1 then ob (Bool × σ) (concatInnerObs obs) (false, acc.2) else acc)
    (true, s)).2

/-- Models `Observable.prototype.concat = Observable.concat = function
    (...observables)`: when `this.subscribe` is a function (instance call,
    `self = some src`) it subscribes to the receiver with `callback` as its
    complete handler; otherwise (static call, `self = none`) it runs
    `callback()` directly; in both cases `completeFn()` is invoked at the end
    of the subscribe body. -/
def concat (self : Option (Obs ε α)) (observables : List (Obs ε α)) : Obs ε α :=
  fun σ obs s =>
    obs.completeFn
      (match self with
       | some src =>
           src σ ⟨fun val s => obs.nextFn val s, obs.errorFn,
                  fun s => concatCallback observables obs s⟩ s
       | none => concatCallback observables obs s)

/-- A settled promise: fulfilled with a value of `α` or rejected with a reason
    of `ρ`; the opaque single-value asynchronous source of the library. -/
def SettledPromise (ρ α : Type) : Type := Except ρ α

/-- Models `promise.then(f)` with a fulfillment handler only: the handler runs
    (updating the world) exactly when the promise is fulfilled, and produces
    the chained promise; a rejection propagates past the missing handler. -/
def promiseThen {ρ γ : Type} (p : SettledPromise ρ α) (f : α → σ → σ × γ) (s : σ) :
    σ × SettledPromise ρ γ :=
  match p with
  | .ok v => let r := f v s; (r.1, .ok r.2)
  | .error e => (s, .error e)

/-- Models `Observable.fromPromise = (promise = {}) => ...` with subscribe body
    `promise.then(val => nextFn(val)).then(() => completeFn())`. -/
def fromPromise {ρ : Type} (promise : SettledPromise ρ α) : Obs ε α :=
  fun _ obs s =>
    let r₁ := promiseThen promise (fun val s => (obs.nextFn val s, ())) s
    let r₂ := promiseThen r₁.2 (fun _ s => (obs.completeFn s, ())) r₁.1
    r₂.1

/-- The JavaScript value shapes `Observable.from` distinguishes: a thenable, an
    array, a string, a `Map` (its entry list), `null`, a number, or any other
    plain object. -/
inductive JVal where
  | thenable (p : Except JVal JVal)
  | arr (vs : List JVal)
  | str (st : String)
  | mapv (entries : List (JVal × JVal))
  | nullv
  | num (n : Int)
  | obj

/-- Models `Observable.from = (input) => ...` (named `from` in the source, a
    Lean keyword): thenable input goes to `fromPromise`; an array is spread
    into `of`; a truthy (non-empty) string is split into its characters and
    spread into `of`; a `Map` has its entries (key/value pairs, as 2-element
    arrays, in iteration order) spread into `of`; anything else falls off the
    end of the function and yields `undefined` (`none`). -/
def fromVal : JVal → Option (Obs ε JVal)
  | .thenable p => some (fromPromise p)
  | .arr vs => some (of vs)
  | .str st =>
      if st = "" then none
      else some (of (st.toList.map (fun c => JVal.str c.toString)))
  | .mapv entries => some (of (entries.map (fun kv => JVal.arr [kv.1, kv.2])))
  | .nullv => none
  | .num _ => none
  | .obj => none

/-- Whether an event is a `next` (as opposed to a terminal notification). -/
def Ev.isNext : Ev ε α → Bool
  | .next _ => true
  | .error _ => false
  | .complete => false

/-- The event sequence `map f` re-emits when its upstream replays a trace. -/
def mapTr (f : α → β) : List (Ev ε α) → List (Ev ε β)
  | [] => []
  | .next v :: tr => .next (f v) :: mapTr f tr
  | .error e :: tr => .error e :: mapTr f tr
  | .complete :: tr => .complete :: mapTr f tr

/-- The event sequence `filter p` re-emits when its upstream replays a trace. -/
def filterTr (p : α → Bool) : List (Ev ε α) → List (Ev ε α)
  | [] => []
  | .next v :: tr => if p v then .next v :: filterTr p tr else filterTr p tr
  | .error e :: tr => .error e :: filterTr p tr
  | .complete :: tr => .complete :: filterTr p tr

/-- The event sequence `take count` re-emits, given the current counter `i`. -/
def takeTr (count : Int) : Int → List (Ev ε α) → List (Ev ε α)
  | _, [] => []
  | i, .next v :: tr =>
      if i + 1 ≤ count then .next v :: takeTr count (i + 1) tr
      else takeTr count (i + 1) tr
  | i, .error e :: tr => .error e :: takeTr count i tr
  | i, .complete :: tr => .complete :: takeTr count i tr

/-- The event sequence `first predicate` re-emits, given the current guard. -/
def firstTr (predicate : Option (α → Bool)) : Bool → List (Ev ε α) → List (Ev ε α)
  | _, [] => []
  | b, .next v :: tr =>
      if b then
        match predicate with
        | some pred =>
            if pred v then .next v :: firstTr predicate false tr
            else firstTr predicate true tr
        | none => .next v :: firstTr predicate false tr
      else firstTr predicate false tr
  | b, .error e :: tr => .error e :: firstTr predicate b tr
  | b, .complete :: tr => .complete :: firstTr predicate b tr

/-- The event sequence `skip the` re-emits, given the current flag. -/
def skipTr [DecidableEq α] (the : α) : Bool → List (Ev ε α) → List (Ev ε α)
  | _, [] => []
  | b, .next v :: tr =>
      if b then .next v :: skipTr the true tr
      else if v = the then skipTr the true tr else skipTr the false tr
  | b, .error e :: tr => .error e :: skipTr the b tr
  | b, .complete :: tr => .complete :: skipTr the b tr

/-- Syntax of the observables built from the library's synchronous creation,
    transformation and filtering operators (one fixed value type). -/
inductive SyncExp (α : Type) : Type where
  | ofE (vs : List α)
  | fromArrayE (vs : List α)
  | mapE (f : α → α) (src : SyncExp α)
  | mapToE (c : α) (src : SyncExp α)
  | filterE (p : α → Bool) (src : SyncExp α)
  | takeE (count : Int) (src : SyncExp α)
  | firstE (predicate : Option (α → Bool)) (src : SyncExp α)
  | skipE (the : α) (src : SyncExp α)
  | startWithE (vs : List α) (src : SyncExp α)

/-- The observable such a chain denotes, operator by operator. -/
def denote [DecidableEq α] : SyncExp α → Obs ε α
  | .ofE vs => of vs
  | .fromArrayE vs => fromArray vs
  | .mapE f src => map (denote src) f
  | .mapToE c src => mapTo (denote src) c
  | .filterE p src => filter (denote src) p
  | .takeE count src => take (denote src) count
  | .firstE predicate src => first (denote src) predicate
  | .skipE the src => skip (denote src) the
  | .startWithE vs src => startWith (denote src) vs

/-- The fixed event trace such a chain produces, via the trace transformers. -/
def traceOf [DecidableEq α] : SyncExp α → List (Ev ε α)
  | .ofE vs => vs.map Ev.next ++ [Ev.complete]
  | .fromArrayE vs => vs.map Ev.next ++ [Ev.complete]
  | .mapE f src => mapTr f (traceOf src)
  | .mapToE c src => mapTr (fun _ => c) (traceOf src)
  | .filterE p src => filterTr p (traceOf src)
  | .takeE count src => takeTr count 0 (traceOf src)
  | .firstE predicate src => firstTr predicate true (traceOf src)
  | .skipE the src => skipTr the false (traceOf src)
  | .startWithE vs src => vs.map Ev.next ++ traceOf src

/-- A proper synchronous source trace: some `next` emissions followed by at
    most one terminal notification (`complete` or `error`). -/
def ProperTrace (tr : List (Ev ε α)) : Prop :=
  ∃ (vs : List α) (term : List (Ev ε α)), tr = vs.map Ev.next ++ term ∧
    (term = [] ∨ term = [Ev.complete] ∨ ∃ e, term = [Ev.error e])

@[simp] theorem applyTo_next (v : α) (obs : Observer ε α σ) (s : σ) :
    (Ev.next v).applyTo obs s = obs.nextFn v s := rfl

@[simp] theorem applyTo_error (e : ε) (obs : Observer ε α σ) (s : σ) :
    (Ev.error e).applyTo obs s = obs.errorFn e s := rfl

@[simp] theorem applyTo_complete (obs : Observer ε α σ) (s : σ) :
    (Ev.complete : Ev ε α).applyTo obs s = obs.completeFn s := rfl

@[simp] theorem collect_next (v : α) (s : List (Ev ε α)) :
    (collect (ε := ε) (α := α)).nextFn v s = s ++ [Ev.next v] := rfl

@[simp] theorem collect_error (e : ε) (s : List (Ev ε α)) :
    (collect (ε := ε) (α := α)).errorFn e s = s ++ [Ev.error e] := rfl

@[simp] theorem collect_complete (s : List (Ev ε α)) :
    (collect (ε := ε) (α := α)).completeFn s = s ++ [Ev.complete] := rfl

@[simp] theorem ofTrace_nil (obs : Observer ε α σ) (s : σ) :
    ofTrace [] σ obs s = s := rfl

@[simp] theorem ofTrace_cons (e : Ev ε α) (tr : List (Ev ε α))
    (obs : Observer ε α σ) (s : σ) :
    ofTrace (e :: tr) σ obs s = ofTrace tr σ obs (e.applyTo obs s) := rfl

theorem ofTrace_append (tr₁ tr₂ : List (Ev ε α)) (obs : Observer ε α σ) (s : σ) :
    ofTrace (tr₁ ++ tr₂) σ obs s = ofTrace tr₂ σ obs (ofTrace tr₁ σ obs s) := by
  induction tr₁ generalizing s with
  | nil => rfl
  | cons e tr ih => simp [ih]

/-- Replaying a trace into the collecting observer appends exactly that trace. -/
theorem ofTrace_collect (tr : List (Ev ε α)) (s : List (Ev ε α)) :
    ofTrace tr _ collect s = s ++ tr := by
  induction tr generalizing s with
  | nil => simp
  | cons e tr ih =>
    cases e <;> simp [ih]

@[simp] theorem run_ofTrace (tr : List (Ev ε α)) : run (ofTrace tr) = tr := by
  simp [run, ofTrace_collect]

/-- `of` behaves like replaying `next` per argument followed by `complete`. -/
theorem of_eq_ofTrace (args : List α) (obs : Observer ε α σ) (s : σ) :
    of args σ obs s = ofTrace (args.map Ev.next ++ [Ev.complete]) σ obs s := by
  simp only [of, ofTrace_append, ofTrace]
  induction args generalizing s with
  | nil => rfl
  | cons v vs ih => simp [ih]

theorem run_of (args : List α) :
    run (of (ε := ε) args) = args.map Ev.next ++ [Ev.complete] := by
  simp [run, of_eq_ofTrace (ε := ε) args collect [], ofTrace_collect]

@[simp] theorem isNext_next (v : α) : (Ev.next (ε := ε) v).isNext = true := rfl

@[simp] theorem isNext_error (e : ε) : (Ev.error (α := α) e).isNext = false := rfl

@[simp] theorem isNext_complete : (Ev.complete (ε := ε) (α := α)).isNext = false := rfl

theorem map_ofTrace (f : α → β) (tr : List (Ev ε α)) (obs : Observer ε β σ) (s : σ) :
    map (ofTrace tr) f none σ obs s = ofTrace (mapTr f tr) σ obs s := by
  simp only [map]
  induction tr generalizing s with
  | nil => rfl
  | cons e tr ih => cases e <;> simp [mapTr, ih]

theorem map_some_ofTrace (self : Obs ε α) (f : α → β) (tr : List (Ev ε α))
    (obs : Observer ε β σ) (s : σ) :
    map self f (some (ofTrace tr)) σ obs s = ofTrace (mapTr f tr) σ obs s := by
  simp only [map]
  induction tr generalizing s with
  | nil => rfl
  | cons e tr ih => cases e <;> simp [mapTr, ih]

theorem filter_ofTrace (p : α → Bool) (tr : List (Ev ε α)) (obs : Observer ε α σ) (s : σ) :
    filter (ofTrace tr) p none σ obs s = ofTrace (filterTr p tr) σ obs s := by
  simp only [filter]
  induction tr generalizing s with
  | nil => rfl
  | cons e tr ih =>
    cases e with
    | next v => by_cases hp : p v <;> simp [filterTr, hp, ih]
    | error e => simp [filterTr, ih]
    | complete => simp [filterTr, ih]

theorem mapTo_ofTrace (c : β) (tr : List (Ev ε α)) (obs : Observer ε β σ) (s : σ) :
    mapTo (ofTrace tr) c σ obs s = ofTrace (mapTr (fun _ => c) tr) σ obs s := by
  simp only [mapTo]
  induction tr generalizing s with
  | nil => rfl
  | cons e tr ih => cases e <;> simp [mapTr, ih]

theorem ofTrace_map_next (args : List α) (obs : Observer ε α σ) (s : σ) :
    ofTrace (args.map Ev.next) σ obs s = args.foldl (fun s x => obs.nextFn x s) s := by
  induction args generalizing s with
  | nil => rfl
  | cons v vs ih => simp [ih]

theorem startWith_ofTrace (args : List α) (tr : List (Ev ε α))
    (obs : Observer ε α σ) (s : σ) :
    startWith (ofTrace tr) args σ obs s
      = ofTrace (args.map Ev.next ++ tr) σ obs s := by
  simp only [startWith, ofTrace_append, ofTrace_map_next]

@[simp] theorem takeObs_next (count : Int) (obs : Observer ε α σ) (val : α)
    (p : Int × σ) :
    (takeObs count obs).nextFn val p
      = if p.1 + 1 ≤ count then (p.1 + 1, obs.nextFn val p.2) else (p.1 + 1, p.2) := rfl

@[simp] theorem takeObs_error (count : Int) (obs : Observer ε α σ) (e : ε) (p : Int × σ) :
    (takeObs count obs).errorFn e p = (p.1, obs.errorFn e p.2) := rfl

@[simp] theorem takeObs_complete (count : Int) (obs : Observer ε α σ) (p : Int × σ) :
    (takeObs count obs).completeFn p = (p.1, obs.completeFn p.2) := rfl

theorem take_fold (count : Int) (tr : List (Ev ε α)) (obs : Observer ε α σ)
    (i : Int) (s : σ) :
    (ofTrace tr (Int × σ) (takeObs count obs) (i, s)).2
      = ofTrace (takeTr count i tr) σ obs s := by
  induction tr generalizing i s with
  | nil => rfl
  | cons e tr ih =>
    cases e with
    | next v => by_cases h : i + 1 ≤ count <;> simp [takeTr, h, ih]
    | error e => simp [takeTr, ih]
    | complete => simp [takeTr, ih]

theorem take_ofTrace (count : Int) (tr : List (Ev ε α)) (obs : Observer ε α σ) (s : σ) :
    take (ofTrace tr) count σ obs s = ofTrace (takeTr count 0 tr) σ obs s :=
  take_fold count tr obs 0 s

@[simp] theorem firstObs_next (predicate : Option (α → Bool)) (obs : Observer ε α σ)
    (val : α) (p : Bool × σ) :
    (firstObs predicate obs).nextFn val p
      = if p.1 then
          match predicate with
          | some pred => if pred val then (false, obs.nextFn val p.2) else p
          | none => (false, obs.nextFn val p.2)
        else p := rfl

@[simp] theorem firstObs_error (predicate : Option (α → Bool)) (obs : Observer ε α σ)
    (e : ε) (p : Bool × σ) :
    (firstObs predicate obs).errorFn e p = (p.1, obs.errorFn e p.2) := rfl

@[simp] theorem firstObs_complete (predicate : Option (α → Bool)) (obs : Observer ε α σ)
    (p : Bool × σ) :
    (firstObs predicate obs).completeFn p = (p.1, obs.completeFn p.2) := rfl

theorem first_fold (predicate : Option (α → Bool)) (tr : List (Ev ε α))
    (obs : Observer ε α σ) (b : Bool) (s : σ) :
    (ofTrace tr (Bool × σ) (firstObs predicate obs) (b, s)).2
      = ofTrace (firstTr predicate b tr) σ obs s := by
  induction tr generalizing b s with
  | nil => rfl
  | cons e tr ih =>
    cases e with
    | next v =>
      cases b with
      | false => simp [firstTr, ih]
      | true =>
        cases predicate with
        | none => simp [firstTr, ih]
        | some pred => by_cases hp : pred v <;> simp [firstTr, hp, ih]
    | error e => simp [firstTr, ih]
    | complete => simp [firstTr, ih]

theorem first_ofTrace (predicate : Option (α → Bool)) (tr : List (Ev ε α))
    (obs : Observer ε α σ) (s : σ) :
    first (ofTrace tr) predicate σ obs s = ofTrace (firstTr predicate true tr) σ obs s :=
  first_fold predicate tr obs true s

@[simp] theorem skipObs_next [DecidableEq α] (the : α) (obs : Observer ε α σ)
    (val : α) (p : Bool × σ) :
    (skipObs the obs).nextFn val p
      = if p.1 then (p.1, obs.nextFn val p.2)
        else if val = the then (true, p.2) else p := rfl

@[simp] theorem skipObs_error [DecidableEq α] (the : α) (obs : Observer ε α σ)
    (e : ε) (p : Bool × σ) :
    (skipObs the obs).errorFn e p = (p.1, obs.errorFn e p.2) := rfl

@[simp] theorem skipObs_complete [DecidableEq α] (the : α) (obs : Observer ε α σ)
    (p : Bool × σ) :
    (skipObs the obs).completeFn p = (p.1, obs.completeFn p.2) := rfl

theorem skip_fold [DecidableEq α] (the : α) (tr : List (Ev ε α))
    (obs : Observer ε α σ) (b : Bool) (s : σ) :
    (ofTrace tr (Bool × σ) (skipObs the obs) (b, s)).2
      = ofTrace (skipTr the b tr) σ obs s := by
  induction tr generalizing b s with
  | nil => rfl
  | cons e tr ih =>
    cases e with
    | next v =>
      cases b with
      | true => simp [skipTr, ih]
      | false => by_cases hv : v = the <;> simp [skipTr, hv, ih]
    | error e => simp [skipTr, ih]
    | complete => simp [skipTr, ih]

theorem skip_ofTrace [DecidableEq α] (the : α) (tr : List (Ev ε α))
    (obs : Observer ε α σ) (s : σ) :
    skip (ofTrace tr) the σ obs s = ofTrace (skipTr the false tr) σ obs s :=
  skip_fold the tr obs false s

theorem mapTr_append (f : α → β) (tr₁ tr₂ : List (Ev ε α)) :
    mapTr f (tr₁ ++ tr₂) = mapTr f tr₁ ++ mapTr f tr₂ := by
  induction tr₁ with
  | nil => rfl
  | cons e tr ih => cases e <;> simp [mapTr, ih]

theorem mapTr_map_next (f : α → β) (vs : List α) :
    mapTr (ε := ε) f (vs.map Ev.next) = (vs.map f).map Ev.next := by
  induction vs with
  | nil => rfl
  | cons v vs ih => simp [mapTr, ih]

theorem filterTr_append (p : α → Bool) (tr₁ tr₂ : List (Ev ε α)) :
    filterTr p (tr₁ ++ tr₂) = filterTr p tr₁ ++ filterTr p tr₂ := by
  induction tr₁ with
  | nil => rfl
  | cons e tr ih =>
    cases e with
    | next v => by_cases hp : p v <;> simp [filterTr, hp, ih]
    | error e => simp [filterTr, ih]
    | complete => simp [filterTr, ih]

theorem filterTr_map_next (p : α → Bool) (vs : List α) :
    filterTr (ε := ε) p (vs.map Ev.next) = (vs.filter p).map Ev.next := by
  induction vs with
  | nil => rfl
  | cons v vs ih => by_cases hp : p v <;> simp [filterTr, hp, ih, List.filter_cons]

theorem takeTr_prefix (count : Int) (vs : List α) (tl : List (Ev ε α))
    (htl : ∀ j, takeTr count j tl = tl) (i : Int) :
    takeTr count i (vs.map Ev.next ++ tl)
      = (vs.take (count - i).toNat).map Ev.next ++ tl := by
  induction vs generalizing i with
  | nil => simpa using htl i
  | cons v vs ih =>
    by_cases h : i + 1 ≤ count
    · have h1 : (count - i).toNat = (count - (i + 1)).toNat + 1 := by omega
      simp [takeTr, h, ih, h1]
    · have h1 : (count - i).toNat = 0 := by omega
      have h2 : (count - (i + 1)).toNat = 0 := by omega
      simp [takeTr, h, ih, h1, h2]

theorem firstTr_false (predicate : Option (α → Bool)) (vs : List α)
    (tl : List (Ev ε α)) (htl : ∀ b, firstTr predicate b tl = tl) :
    firstTr predicate false (vs.map Ev.next ++ tl) = tl := by
  induction vs with
  | nil => simpa using htl false
  | cons v vs ih => simpa [firstTr] using ih

theorem firstTr_none (vs : List α) (tl : List (Ev ε α))
    (htl : ∀ b, firstTr (none : Option (α → Bool)) b tl = tl) :
    firstTr none true (vs.map Ev.next ++ tl) = (vs.take 1).map Ev.next ++ tl := by
  cases vs with
  | nil => simpa using htl true
  | cons v vs => simp [firstTr, firstTr_false _ _ _ htl]

theorem firstTr_some (p : α → Bool) (vs : List α) (tl : List (Ev ε α))
    (htl : ∀ b, firstTr (some p) b tl = tl) :
    firstTr (some p) true (vs.map Ev.next ++ tl)
      = ((vs.filter p).take 1).map Ev.next ++ tl := by
  induction vs with
  | nil => simpa using htl true
  | cons v vs ih =>
    by_cases hp : p v
    · simp [firstTr, hp, firstTr_false _ _ _ htl, List.filter_cons]
    · simpa [firstTr, hp, List.filter_cons] using ih

theorem skipTr_true [DecidableEq α] (the : α) (vs : List α) (tl : List (Ev ε α))
    (htl : ∀ b, skipTr the b tl = tl) :
    skipTr the true (vs.map Ev.next ++ tl) = vs.map Ev.next ++ tl := by
  induction vs with
  | nil => simpa using htl true
  | cons v vs ih => simp [skipTr, ih]

theorem skipTr_false [DecidableEq α] (the : α) (vs : List α) (tl : List (Ev ε α))
    (htl : ∀ b, skipTr the b tl = tl) :
    skipTr the false (vs.map Ev.next ++ tl)
      = ((vs.dropWhile (fun v => v != the)).drop 1).map Ev.next ++ tl := by
  induction vs with
  | nil => simpa using htl false
  | cons v vs ih =>
    by_cases hv : v = the
    · simp [skipTr, hv, skipTr_true _ _ _ htl, List.dropWhile_cons]
    · simpa [skipTr, hv, List.dropWhile_cons] using ih

@[simp] theorem concatInnerObs_next (obs : Observer ε α σ) (v : α) (p : Bool × σ) :
    (concatInnerObs obs).nextFn v p = (p.1, obs.nextFn v p.2) := rfl

@[simp] theorem concatInnerObs_error (obs : Observer ε α σ) (e : ε) (p : Bool × σ) :
    (concatInnerObs obs).errorFn e p = (p.1, obs.errorFn e p.2) := rfl

@[simp] theorem concatInnerObs_complete (obs : Observer ε α σ) (p : Bool × σ) :
    (concatInnerObs obs).completeFn p = (true, p.2) := rfl

/-- Once the `isDone` flag is clear, the remaining queued observables are all
    skipped by `concat`'s callback loop. -/
theorem concatFold_false (observables : List (Obs ε α)) (obs : Observer ε α σ) (s : σ) :
    observables.foldl
        (fun acc ob =>
          if acc.1 then ob (Bool × σ) (concatInnerObs obs) (false, acc.2) else acc)
        (false, s)
      = (false, s) := by
  induction observables with
  | nil => rfl
  | cons ob rest ih => simpa using ih

/-- Replaying only `next` events through `concat`'s inner observer forwards
    them downstream and leaves the `isDone` flag untouched. -/
theorem concatInner_map_next (vs : List α) (obs : Observer ε α σ) (d : Bool) (s : σ) :
    ofTrace (vs.map Ev.next) (Bool × σ) (concatInnerObs obs) (d, s)
      = (d, ofTrace (vs.map Ev.next) σ obs s) := by
  induction vs generalizing s with
  | nil => rfl
  | cons v vs ih => simp [ih]

/-- Every synchronous chain behaves exactly like replaying its fixed trace:
    its producer emits the same events into any observer over any world, so no
    state survives a subscription. -/
theorem denote_eq_ofTrace [DecidableEq α] (e : SyncExp α) (σ : Type)
    (obs : Observer ε α σ) (s : σ) :
    denote e σ obs s = ofTrace (traceOf e) σ obs s := by
  induction e generalizing σ s with
  | ofE vs => exact of_eq_ofTrace vs obs s
  | fromArrayE vs => exact of_eq_ofTrace vs obs s
  | mapE f src ih =>
    show map (denote src) f none σ obs s = _
    simp only [map]
    rw [ih]
    exact map_ofTrace f (traceOf src) obs s
  | mapToE c src ih =>
    show mapTo (denote src) c σ obs s = _
    simp only [mapTo]
    rw [ih]
    exact mapTo_ofTrace c (traceOf src) obs s
  | filterE p src ih =>
    show filter (denote src) p none σ obs s = _
    simp only [filter]
    rw [ih]
    exact filter_ofTrace p (traceOf src) obs s
  | takeE count src ih =>
    show (denote src (Int × σ) (takeObs count obs) (0, s)).2 = _
    rw [ih]
    exact take_fold count (traceOf src) obs 0 s
  | firstE predicate src ih =>
    show (denote src (Bool × σ) (firstObs predicate obs) (true, s)).2 = _
    rw [ih]
    exact first_fold predicate (traceOf src) obs true s
  | skipE the src ih =>
    show (denote src (Bool × σ) (skipObs the obs) (false, s)).2 = _
    rw [ih]
    exact skip_fold the (traceOf src) obs false s
  | startWithE vs src ih =>
    show startWith (denote src) vs σ obs s = _
    simp only [startWith]
    rw [ih]
    exact startWith_ofTrace vs (traceOf src) obs s

theorem run_denote [DecidableEq α] (e : SyncExp α) :
    run (denote (ε := ε) e) = traceOf e := by
  simp [run, denote_eq_ofTrace, ofTrace_collect]

/-- Replaying `next` events only touches an observer's `nextFn`, so two
    observers with pointwise-equal `nextFn` receive them identically. -/
theorem ofTrace_map_next_congr (vs : List α) (obs obsB : Observer ε α σ)
    (h : ∀ v s, obs.nextFn v s = obsB.nextFn v s) (s : σ) :
    ofTrace (vs.map Ev.next) σ obs s = ofTrace (vs.map Ev.next) σ obsB s := by
  induction vs generalizing s with
  | nil => rfl
  | cons v vs ih => simp [h, ih]

theorem concatCallback_cons (x : Obs ε α) (rest : List (Obs ε α))
    (obs : Observer ε α σ) (s : σ) :
    concatCallback (x :: rest) obs s
      = (rest.foldl
          (fun acc ob =>
            if acc.1 then ob (Bool × σ) (concatInnerObs obs) (false, acc.2) else acc)
          (x (Bool × σ) (concatInnerObs obs) (false, s))).2 := rfl

theorem concatCallback_of_foldl_true (rest : List (Obs ε α))
    (obs : Observer ε α σ) (s : σ) :
    (rest.foldl
        (fun acc ob =>
          if acc.1 then ob (Bool × σ) (concatInnerObs obs) (false, acc.2) else acc)
        (true, s)).2
      = concatCallback rest obs s := rfl

/-- Core of the static/instance agreement: running `concat` with a proper first
    source in the queue (static call shape) produces the same world as
    subscribing to it as the receiver (instance call shape). -/
theorem concat_cons_eq (vs : List α) (term : List (Ev ε α))
    (hterm : term = [] ∨ term = [Ev.complete] ∨ ∃ e, term = [Ev.error e])
    (rest : List (Obs ε α)) (σ : Type) (obs : Observer ε α σ) (s : σ) :
    concat none (ofTrace (vs.map Ev.next ++ term) :: rest) σ obs s
      = concat (some (ofTrace (vs.map Ev.next ++ term))) rest σ obs s := by
  have hnext :
      ofTrace (vs.map Ev.next) σ
          ⟨fun val s => obs.nextFn val s, obs.errorFn,
           fun s => concatCallback rest obs s⟩ s
        = ofTrace (vs.map Ev.next) σ obs s :=
    ofTrace_map_next_congr vs
      ⟨fun val s => obs.nextFn val s, obs.errorFn, fun s => concatCallback rest obs s⟩
      obs (fun _ _ => rfl) s
  rcases hterm with h | h | ⟨e, h⟩ <;> subst h
  · simp only [concat, concatCallback_cons, ofTrace_append,
      concatInner_map_next, ofTrace_nil, concatFold_false, hnext]
  · simp only [concat, concatCallback_cons, ofTrace_append,
      concatInner_map_next, ofTrace_cons, ofTrace_nil, applyTo_complete,
      concatInnerObs_complete, concatCallback_of_foldl_true, hnext]
  · simp only [concat, concatCallback_cons, ofTrace_append,
      concatInner_map_next, ofTrace_cons, ofTrace_nil, applyTo_error,
      concatInnerObs_error, concatFold_false, hnext]

theorem run_map_ofTrace (f : α → β) (tr : List (Ev ε α)) :
    run (map (ofTrace tr) f) = mapTr f tr := by
  simp [run, map_ofTrace, ofTrace_collect]

theorem run_filter_ofTrace (p : α → Bool) (tr : List (Ev ε α)) :
    run (filter (ofTrace tr) p) = filterTr p tr := by
  simp [run, filter_ofTrace, ofTrace_collect]

theorem run_mapTo_ofTrace (c : β) (tr : List (Ev ε α)) :
    run (mapTo (ofTrace tr) c) = mapTr (fun _ => c) tr := by
  simp [run, mapTo_ofTrace, ofTrace_collect]

theorem run_startWith_ofTrace (args : List α) (tr : List (Ev ε α)) :
    run (startWith (ofTrace tr) args) = args.map Ev.next ++ tr := by
  simp [run, startWith_ofTrace, ofTrace_collect]

theorem run_take_ofTrace (count : Int) (tr : List (Ev ε α)) :
    run (take (ofTrace tr) count) = takeTr count 0 tr := by
  simp [run, take_ofTrace, ofTrace_collect]

theorem run_take_of (vs : List α) (count : Int) :
    run (take (ε := ε) (of vs) count)
      = takeTr count 0 (vs.map Ev.next ++ [Ev.complete]) := by
  show (of vs _ (takeObs count collect) (0, ([] : List (Ev ε α)))).2 = _
  rw [of_eq_ofTrace, take_fold, ofTrace_collect]
  simp

theorem run_first_of (vs : List α) (predicate : Option (α → Bool)) :
    run (first (ε := ε) (of vs) predicate)
      = firstTr predicate true (vs.map Ev.next ++ [Ev.complete]) := by
  show (of vs _ (firstObs predicate collect) (true, ([] : List (Ev ε α)))).2 = _
  rw [of_eq_ofTrace, first_fold, ofTrace_collect]
  simp

theorem run_skip_of [DecidableEq α] (vs : List α) (the : α) :
    run (skip (ε := ε) (of vs) the)
      = skipTr the false (vs.map Ev.next ++ [Ev.complete]) := by
  show (of vs _ (skipObs the collect) (false, ([] : List (Ev ε α)))).2 = _
  rw [of_eq_ofTrace, skip_fold, ofTrace_collect]
  simp

theorem run_skip_ofTrace [DecidableEq α] (the : α) (tr : List (Ev ε α)) :
    run (skip (ofTrace tr) the) = skipTr the false tr := by
  simp [run, skip_ofTrace, ofTrace_collect]

/-- `skip` never touches terminal notifications: the non-`next` events of its
    output are exactly those of its input. -/
theorem skipTr_filter [DecidableEq α] (the : α) (tr : List (Ev ε α)) (b : Bool) :
    (skipTr the b tr).filter (fun e => !e.isNext)
      = tr.filter (fun e => !e.isNext) := by
  induction tr generalizing b with
  | nil => rfl
  | cons e tr ih =>
    cases e with
    | next v =>
      cases b with
      | true => simp [skipTr, List.filter_cons, ih]
      | false => by_cases hv : v = the <;> simp [skipTr, hv, List.filter_cons, ih]
    | error e => simp [skipTr, List.filter_cons, ih]
    | complete => simp [skipTr, List.filter_cons, ih]

/-- Claim C1: for the fully synchronous chain `of(10).concat(of(20))`,
    subscribing yields `next(10)` then `next(20)` in that order, and the
    downstream `completeFn` is called exactly once, after the emission of
    `20`. -/
theorem concat_of_sync_order :
    run (concat (some (of [10])) [of [20]] : Obs Nat Nat)
      = [Ev.next 10, Ev.next 20, Ev.complete] := rfl

/-- Claim C2: `skip(threshold)` forwards exactly the values strictly after the
    first value equal to the threshold (everything up to and including that
    match, or everything when no value matches, is suppressed), while error and
    complete notifications pass through unchanged. -/
theorem skip_value_match_semantics (vs : List Nat) (the : Nat) :
    run (skip (ε := Nat) (of vs) the)
        = ((vs.dropWhile (fun v => v != the)).drop 1).map Ev.next ++ [Ev.complete]
      ∧ ∀ tr : List (Ev Nat Nat),
          (run (skip (ofTrace tr) the)).filter (fun e => !e.isNext)
            = tr.filter (fun e => !e.isNext) := by
  constructor
  · rw [run_skip_of, skipTr_false _ _ _ (fun b => rfl)]
  · intro tr
    rw [run_skip_ofTrace]
    exact skipTr_filter the tr false

/-- Claim C3: `take(count)` forwards exactly the first `count` values (a value
    passes iff its 1-based position is at most `count`), suppresses all later
    values, and leaves completion to the upstream; it keeps listening after the
    count is reached, so a later upstream terminal (here an error) still
    arrives downstream. -/
theorem take_forwards_prefix (vs : List Nat) (count : Int) :
    run (take (ε := Nat) (of vs) count)
        = (vs.take count.toNat).map Ev.next ++ [Ev.complete]
      ∧ ∀ (ws : List Nat) (err : Nat),
          run (take (ofTrace (ws.map Ev.next ++ [Ev.error err])) count)
            = (ws.take count.toNat).map Ev.next ++ [Ev.error err] := by
  constructor
  · rw [run_take_of, takeTr_prefix _ _ _ (fun j => rfl)]
    simp
  · intro ws err
    rw [run_take_ofTrace, takeTr_prefix _ _ _ (fun j => rfl)]
    simp

/-- Claim C4: `of(...vs)` calls `nextFn` once per value in argument order, then
    `completeFn` exactly once, never `errorFn`; `fromArray(arr)` is the same
    observable as `of(...arr)` and defaults to the empty sequence (complete
    only) with no argument. -/
theorem of_fromArray_emit_in_order (vs : List Nat) :
    run (of (ε := Nat) vs) = vs.map Ev.next ++ [Ev.complete]
      ∧ fromArray (ε := Nat) vs = of vs
      ∧ run (fromArray (ε := Nat) (α := Nat)) = [Ev.complete] := by
  refine ⟨run_of vs, rfl, rfl⟩

/-- Claim C5: `fromPromise(p)` on a fulfilled promise delivers `next(v)` then
    `complete()` and never `errorFn`; on a rejected promise no callback at all
    is invoked (no `next`, no `error`, no `complete`). -/
theorem fromPromise_settled_behavior (v : Nat) (r : Nat) :
    run (fromPromise (ε := Nat) (.ok v : SettledPromise Nat Nat))
        = [Ev.next v, Ev.complete]
      ∧ run (fromPromise (ε := Nat) (.error r : SettledPromise Nat Nat)) = [] := by
  exact ⟨rfl, rfl⟩

/-- Claim C6: `from(input)` dispatches on the shape of `input`: a thenable goes
    to `fromPromise`; an array is spread into `of`; a non-empty string becomes
    `of` over its characters in order; a `Map` becomes `of` over its entries
    (2-element key/value pairs in iteration order); every other input (null,
    numbers, plain objects, the empty string) yields `undefined` (`none`). -/
theorem fromVal_dispatch :
    (∀ p : Except JVal JVal,
        fromVal (ε := Nat) (.thenable p) = some (fromPromise p))
      ∧ (∀ vs : List JVal, fromVal (ε := Nat) (.arr vs) = some (of vs))
      ∧ (∀ vs : List JVal,
          Option.map run (fromVal (ε := Nat) (.arr vs))
            = some (vs.map Ev.next ++ [Ev.complete]))
      ∧ (∀ st : String,
          fromVal (ε := Nat) (.str st)
            = if st = "" then none
              else some (of (st.toList.map (fun c => JVal.str c.toString))))
      ∧ (∀ entries : List (JVal × JVal),
          fromVal (ε := Nat) (.mapv entries)
            = some (of (entries.map (fun kv => JVal.arr [kv.1, kv.2]))))
      ∧ (∀ entries : List (JVal × JVal),
          Option.map run (fromVal (ε := Nat) (.mapv entries))
            = some ((entries.map (fun kv => JVal.arr [kv.1, kv.2])).map Ev.next
                ++ [Ev.complete]))
      ∧ fromVal (ε := Nat) .nullv = none
      ∧ (∀ n : Int, fromVal (ε := Nat) (.num n) = none)
      ∧ fromVal (ε := Nat) .obj = none := by
  refine ⟨fun p => rfl, fun vs => rfl, fun vs => ?_, fun st => rfl, fun entries => rfl,
    fun entries => ?_, rfl, fun n => rfl, rfl⟩
  · simp [fromVal, run_of]
  · simp [fromVal, run_of]

/-- Claim C7: `map`, `filter`, `mapTo` and `startWith` forward an upstream
    error to the downstream `errorFn` unchanged, and emit no further `next`
    after it: with an upstream that emits values then one error, the output is
    the transformed values followed by exactly that error and nothing else. -/
theorem operators_forward_error_unchanged (vs : List Nat) (err : Nat)
    (f : Nat → Nat) (p : Nat → Bool) (c : Nat) (args : List Nat) :
    run (map (ofTrace (vs.map Ev.next ++ [Ev.error err])) f)
        = (vs.map f).map Ev.next ++ [Ev.error err]
      ∧ run (filter (ofTrace (vs.map Ev.next ++ [Ev.error err])) p)
          = (vs.filter p).map Ev.next ++ [Ev.error err]
      ∧ run (mapTo (ofTrace (vs.map Ev.next ++ [Ev.error err])) c)
          = (vs.map fun _ => c).map Ev.next ++ [Ev.error err]
      ∧ run (startWith (ofTrace (vs.map Ev.next ++ [Ev.error err])) args)
          = args.map Ev.next ++ vs.map Ev.next ++ [Ev.error err] := by
  refine ⟨?_, ?_, ?_, ?_⟩
  · rw [run_map_ofTrace, mapTr_append, mapTr_map_next]
    rfl
  · rw [run_filter_ofTrace, filterTr_append, filterTr_map_next]
    rfl
  · rw [run_mapTo_ofTrace, mapTr_append, mapTr_map_next]
    rfl
  · rw [run_startWith_ofTrace, List.append_assoc]

/-- Claim C8: `first(predicate)` forwards exactly the first value satisfying
    the predicate (the very first value when no predicate is given), suppresses
    every later `next` via its guard flag, and does not force early completion:
    the single `complete` still comes from the upstream at its own time. -/
theorem first_emits_single_match (vs : List Nat) (p : Nat → Bool) :
    run (first (ε := Nat) (of vs)) = (vs.take 1).map Ev.next ++ [Ev.complete]
      ∧ run (first (ε := Nat) (of vs) (some p))
          = ((vs.filter p).take 1).map Ev.next ++ [Ev.complete] := by
  constructor
  · rw [run_first_of, firstTr_none _ _ (fun b => rfl)]
  · rw [run_first_of, firstTr_some _ _ _ (fun b => rfl)]

/-- Claim C9: subscribing twice in succession to any observable built from the
    synchronous creation, transformation and filtering operators delivers the
    complete, identical event sequence both times: the second subscription
    appends exactly the same trace the first did, because every subscription
    re-runs the producer with fresh local state. -/
theorem replay_independence (e : SyncExp Nat) :
    denote (ε := Nat) e (List (Ev Nat Nat)) collect
        (denote (ε := Nat) e (List (Ev Nat Nat)) collect [])
      = run (denote (ε := Nat) e) ++ run (denote (ε := Nat) e) := by
  simp [denote_eq_ofTrace, ofTrace_collect, run_denote]

/-- Claim C10: for a proper synchronous first source, the static call
    `Observable.concat(o1, ..., on)` (no `subscribe` on `this`, so the callback
    runs directly over all arguments) delivers exactly the same `next`, `error`
    and `complete` calls to any subscriber as the instance call
    `o1.concat(o2, ..., on)`. -/
theorem concat_static_instance_agree (tr₁ : List (Ev ε α)) (rest : List (Obs ε α))
    (h : ProperTrace tr₁) (σ : Type) (obs : Observer ε α σ) (s : σ) :
    concat none (ofTrace tr₁ :: rest) σ obs s
      = concat (some (ofTrace tr₁)) rest σ obs s := by
  obtain ⟨vs, term, rfl, hterm⟩ := h
  exact concat_cons_eq vs term hterm rest σ obs s

/-- Witness for claim C10 at the concrete sources `of(10)` and `of(20)` under
    the collecting observer. -/
theorem concat_static_instance_agree_witness :
    ProperTrace [Ev.next (10 : Nat), Ev.complete (ε := Nat)]
      ∧ concat none [ofTrace [Ev.next (10 : Nat), Ev.complete (ε := Nat)], of [20]]
            (List (Ev Nat Nat)) collect []
          = concat (some (ofTrace [Ev.next (10 : Nat), Ev.complete (ε := Nat)]))
              [of [20]] (List (Ev Nat Nat)) collect [] := by
  refine ⟨⟨[10], [Ev.complete], rfl, Or.inr (Or.inl rfl)⟩, ?_⟩
  exact concat_static_instance_agree _ _
    ⟨[10], [Ev.complete], rfl, Or.inr (Or.inl rfl)⟩ (List (Ev Nat Nat)) collect []

end RxModel
